import Mathlib

/-!
# Verification of the `simplex` crate (pedalgo)

A shallow embedding of the core of the repository: symbolic linear
functions over named variables (`src/simplex/src/linear_function.rs`),
constraints and constraint sets with slack-variable standardization,
the ratio test and the pivot step (`src/simplex/src/constraint.rs`),
and the linear program / simplex execution context with its navigable
history (`src/simplex/src/lib.rs`).

Modelling conventions:
* Rust `f32` scalars are modelled as `ℚ`.  All concrete scenarios in the
  claims stay within exactly representable values, and every general
  theorem below is about the algebraic structure of the algorithms, so
  the idealisation is faithful for the properties settled here.  (In `ℚ`,
  `q / 0 = 0`, where `f32` would produce `±inf`/`NaN`; no settled claim
  depends on a division by zero.)
* Rust `HashMap<String, f32>` is modelled as an association list
  `List (String × ℚ)`; the Rust type guarantees distinct keys and has
  unordered (key-value-set) equality, which the embedding mirrors where
  it matters (`hashMapEqB` below).  A deterministic iteration order
  stands in for the HashMap's arbitrary one only in operations whose
  results are order-independent; operations whose results depend on
  order (`first_positive_coefficient`, `Display`) sort by key in the
  source itself and are embedded with an explicit sort.
* Some functions of the crate's `linear_function.rs` are referenced by
  `lib.rs`/`constraint.rs`/`app.rs` but missing from the file as it
  stands (the crate mixes source revisions); these are modelled from
  the specification and marked `Modelled from the spec:` below.
-/

namespace Pedalgo

abbrev Variable := String

/-- Lexicographic comparison of character lists by code point, mirroring
`Ord` on Rust strings (for the ASCII identifiers produced by the parser,
byte order and code-point order agree). -/
def charListLe : List Char → List Char → Bool
  | [], _ => true
  | _ :: _, [] => false
  | a :: as, b :: bs =>
    if a.toNat < b.toNat then true
    else if b.toNat < a.toNat then false
    else charListLe as bs

/-- String comparison used for the deterministic (Bland) variable order. -/
def strLe (a b : Variable) : Bool :=
  charListLe a.data b.data

/-- The `≤` order on variables as a relation, for sorting. -/
def varLe (a b : Variable) : Prop := strLe a b = true

/-- The key order on coefficient entries, for sorting by variable name. -/
def keyLe (p q : Variable × ℚ) : Prop := strLe p.1 q.1 = true

instance : DecidableRel varLe := fun a b =>
  inferInstanceAs (Decidable (strLe a b = true))

instance : DecidableRel keyLe := fun p q =>
  inferInstanceAs (Decidable (strLe p.1 q.1 = true))

/-!
## LinearFunction (`linear_function.rs`)
-/

/-- `LinearFunction`: a constant plus a sparse coefficient map
(`pub struct LinearFunction { pub constant: Coefficient, coefficients: HashMap<Variable, Coefficient> }`). -/
structure LinearFunction where
  constant : ℚ
  coefficients : List (Variable × ℚ)
deriving DecidableEq, Repr, Inhabited

/-- First-match lookup in the coefficient map (`HashMap::get`). -/
def lookupCoeff : List (Variable × ℚ) → Variable → Option ℚ
  | [], _ => none
  | p :: l, v => if p.1 = v then some p.2 else lookupCoeff l v

/-- `HashMap::remove` of a key (keys are distinct in a `HashMap`, so
filtering every occurrence agrees with removing the entry). -/
def eraseVar (l : List (Variable × ℚ)) (v : Variable) : List (Variable × ℚ) :=
  l.filter (fun p => ¬ p.1 = v)

/-- `coefficients.entry(var).or_insert(0.) += d` : add `d` to the entry of
`v`, inserting it if absent. -/
def updateAdd : List (Variable × ℚ) → Variable → ℚ → List (Variable × ℚ)
  | [], v, d => [(v, d)]
  | p :: l, v, d => if p.1 = v then (p.1, p.2 + d) :: l else p :: updateAdd l v d

namespace LinearFunction

/-- `LinearFunction::zero` -/
def zero : LinearFunction := ⟨0, []⟩

/-- `LinearFunction::single_variable`: a single variable with coefficient 1. -/
def single_variable (v : Variable) : LinearFunction := ⟨0, [(v, 1)]⟩

/-- The defaulted coefficient lookup (`impl Index for LinearFunction`,
absent keys read as `0`). -/
def getCoeff (f : LinearFunction) (v : Variable) : ℚ :=
  (lookupCoeff f.coefficients v).getD 0

/-- Modelled from the spec: `LinearFunction::contains` is referenced by
`constraint.rs` but missing from the crate's `linear_function.rs`; the
data model describes the coefficients as a sparse map, so `contains` is
key membership (presence of the entry, even with coefficient `0`). -/
def contains (f : LinearFunction) (v : Variable) : Bool :=
  (lookupCoeff f.coefficients v).isSome

/-- `impl Add for LinearFunction`: fold the right operand's entries into
the left operand's map with `entry(var).or_insert(0.) += coeff`. -/
def add (f g : LinearFunction) : LinearFunction :=
  ⟨f.constant + g.constant,
    g.coefficients.foldl (fun acc p => updateAdd acc p.1 p.2) f.coefficients⟩

/-- `impl Sub for LinearFunction`: `entry(var).or_insert(0.) -= coeff`. -/
def sub (f g : LinearFunction) : LinearFunction :=
  ⟨f.constant - g.constant,
    g.coefficients.foldl (fun acc p => updateAdd acc p.1 (-p.2)) f.coefficients⟩

/-- `impl Mul<f32> for LinearFunction`: scale constant and every coefficient. -/
def mul (f : LinearFunction) (q : ℚ) : LinearFunction :=
  ⟨f.constant * q, f.coefficients.map (fun p => (p.1, p.2 * q))⟩

/-- `impl Div<f32> for LinearFunction`: divide constant and every coefficient. -/
def div (f : LinearFunction) (q : ℚ) : LinearFunction :=
  ⟨f.constant / q, f.coefficients.map (fun p => (p.1, p.2 / q))⟩

/-- `impl Neg for LinearFunction`: negate constant and every coefficient. -/
def neg (f : LinearFunction) : LinearFunction :=
  ⟨-f.constant, f.coefficients.map (fun p => (p.1, -p.2))⟩

/-- Modelled from the spec: `LinearFunction::replace` (substitution) is
called by `lib.rs` and `constraint.rs` but missing from the crate's
`linear_function.rs`.  Per §4.1 `substitute(var, replacement)`: remove
`var`'s coefficient `c` and add `c * replacement` to the function; no-op
when `var` is absent. -/
def replace (f : LinearFunction) (v : Variable) (value : LinearFunction) : LinearFunction :=
  match lookupCoeff f.coefficients v with
  | none => f
  | some c => add ⟨f.constant, eraseVar f.coefficients v⟩ (value.mul c)

/-- `LinearFunction::first_positive_coefficient` as it stands in the
crate's `linear_function.rs` (lines 88–107): collect the entries, sort
them by variable name, retain the nonzero ones, return the first with a
strictly positive coefficient, and fall back to `("error", 0.0)`. -/
def first_positive_coefficient (f : LinearFunction) : Variable × ℚ :=
  let sorted := List.insertionSort keyLe f.coefficients
  let retained := sorted.filter (fun p => ¬ p.2 = 0)
  match retained.find? (fun p => decide (0 < p.2)) with
  | some p => p
  | none => ("error", 0)

/-- Modelled from the spec: the `Option`-returning
`first_positive_coefficient(use_bland_rule)` called by
`Simplex::next_step` is missing from the crate's `linear_function.rs`.
Per §4.1 `firstPositiveCoefficientVariable(deterministicOrder)`: visit
the variables in lexicographic order and return the first with a
strictly positive coefficient, `none` when no coefficient is positive.
(The claims only exercise the deterministic `true` case; the flag is
accepted and the deterministic order is used.) -/
def fpcOpt (_bland : Bool) (f : LinearFunction) : Option Variable :=
  ((List.insertionSort keyLe f.coefficients).find? (fun p => decide (0 < p.2))).map (·.1)

/-- Modelled from the spec: `LinearFunction::no_positive_coefficient`
(the optimality test used by `LinearProgram::is_optimal`) is missing
from the crate's `linear_function.rs`.  Per §4.1
`hasOnlyNonPositiveCoefficients`: no stored coefficient is strictly
positive. -/
def no_positive_coefficient (f : LinearFunction) : Bool :=
  f.coefficients.all (fun p => decide (p.2 ≤ 0))

/-- The reserved slack-variable marker.  Modelled from the spec:
`GAP_VARIABLE_IDENTIFIER` is imported by `constraint.rs` but missing
from the crate's `linear_function.rs`; the spec only says slack names
start with a reserved symbol, modelled here as `"ε"` (a non-ASCII symbol
the expression grammar's `alpha1` identifiers cannot collide with). -/
def gapMarker : String := "ε"

/-- Modelled from the spec: `LinearFunction::non_gap_variables` is
missing from the crate's `linear_function.rs`.  Per §4.1
`onlyStructuralVariables`: every variable name in the expression that
does not match the slack naming scheme (reserved marker prefix). -/
def non_gap_variables (f : LinearFunction) : List Variable :=
  (f.coefficients.map Prod.fst).filter (fun v => ¬ gapMarker.data.isPrefixOf v.data)

/-- Modelled from the spec: `LinearFunction::is_one_normalized_var` is
used by `Constraint::is_valid_linear_programm` but missing from the
crate's `linear_function.rs`.  Per §4.2, the canonical left-hand side is
a single variable with coefficient 1 (zero coefficients read as
absent). -/
def is_one_normalized_var (f : LinearFunction) : Bool :=
  match f.coefficients.filter (fun p => ¬ p.2 = 0) with
  | [p] => p.2 == 1
  | _ => false

/-- Modelled from the spec: `LinearFunction::name_single_variable` is
used by `LinearProgram::point` but missing from the crate's
`linear_function.rs`.  The name of the function's single (nonzero)
variable, when there is exactly one. -/
def name_single_variable (f : LinearFunction) : Option Variable :=
  match f.coefficients.filter (fun p => ¬ p.2 = 0) with
  | [p] => some p.1
  | _ => none

/-- The derived `PartialEq` of `LinearFunction`: equal constants and
equal `HashMap`s, where `HashMap` equality is equal size together with
every entry of the left map present with the same value in the right
map. -/
def hashMapEqB (a b : List (Variable × ℚ)) : Bool :=
  a.length == b.length && a.all (fun p => lookupCoeff b p.1 == some p.2)

/-- `PartialEq for LinearFunction` (derived). -/
def beq (f g : LinearFunction) : Bool :=
  f.constant == g.constant && hashMapEqB f.coefficients g.coefficients

end LinearFunction

/-!
## Parsing (`impl FromStr for LinearFunction`, nom combinators)

The parser works on `List Char`, mirroring the nom combinators used by
the source: `multispace0`, `alt((tag("-"), tag("+")))`, `float`,
`alpha1`, `many0`, `many_till(anychar, parse_op)`.
-/

/-- nom `multispace0`: spaces, tabs, carriage returns and newlines. -/
def isSpaceChar (c : Char) : Bool :=
  c = ' ' || c = '\t' || c = '\n' || c = '\r'

/-- nom `alpha1` character class (ASCII letters). -/
def isAsciiAlpha (c : Char) : Bool :=
  ('a'.toNat ≤ c.toNat && c.toNat ≤ 'z'.toNat) ||
    ('A'.toNat ≤ c.toNat && c.toNat ≤ 'Z'.toNat)

/-- ASCII digit class. -/
def isAsciiDigit (c : Char) : Bool :=
  '0'.toNat ≤ c.toNat && c.toNat ≤ '9'.toNat

/-- Value of a digit string, most significant first. -/
def digitsVal (ds : List Char) : ℕ :=
  ds.foldl (fun a c => a * 10 + (c.toNat - '0'.toNat)) 0

/-- nom `float` (numeric grammar): optional sign, then either digits with
an optional fractional part or a bare fractional part, then an optional
exponent.  Returns the parsed value and the rest of the input. -/
def parseFloat (cs : List Char) : Option (ℚ × List Char) :=
  let sgn : ℚ × List Char :=
    match cs with
    | '-' :: r => (-1, r)
    | '+' :: r => (1, r)
    | _ => (1, cs)
  let ip := sgn.2.takeWhile isAsciiDigit
  let cs2 := sgn.2.dropWhile isAsciiDigit
  let mantissa : Option (ℚ × List Char) :=
    if ip.isEmpty then
      match cs2 with
      | '.' :: r =>
        let fp := r.takeWhile isAsciiDigit
        if fp.isEmpty then none
        else some ((digitsVal fp : ℚ) / (10 : ℚ) ^ fp.length, r.dropWhile isAsciiDigit)
      | _ => none
    else
      match cs2 with
      | '.' :: r =>
        let fp := r.takeWhile isAsciiDigit
        some ((digitsVal ip : ℚ) + (digitsVal fp : ℚ) / (10 : ℚ) ^ fp.length,
          r.dropWhile isAsciiDigit)
      | _ => some ((digitsVal ip : ℚ), cs2)
  match mantissa with
  | none => none
  | some (m, rest) =>
    match rest with
    | 'e' :: r | 'E' :: r =>
      let esgn : Bool × List Char :=
        match r with
        | '-' :: r2 => (false, r2)
        | '+' :: r2 => (true, r2)
        | _ => (true, r)
      let ed := esgn.2.takeWhile isAsciiDigit
      if ed.isEmpty then some (sgn.1 * m, rest)
      else
        let e : ℚ := (10 : ℚ) ^ digitsVal ed
        some (sgn.1 * m * (if esgn.1 then e else e⁻¹), esgn.2.dropWhile isAsciiDigit)
    | _ => some (sgn.1 * m, rest)

/-- One term of the expression grammar (`parse_variable` inside
`FromStr for LinearFunction`): an optional sign (each preceded by
insignificant whitespace), an optional coefficient, an optional
identifier; a bare coefficient yields the empty variable name (a
constant contribution), and a missing coefficient defaults to 1. -/
def parseTerm (cs : List Char) : Option ((Variable × ℚ) × List Char) :=
  let signed : Bool × List Char :=
    match cs.dropWhile isSpaceChar with
    | '-' :: r => (false, r)
    | '+' :: r => (true, r)
    | _ => (true, cs)
  let positive := signed.1
  let rest0 := signed.2
  match parseFloat (rest0.dropWhile isSpaceChar) with
  | some (q, rest1) =>
    let name := (rest1.dropWhile isSpaceChar).takeWhile isAsciiAlpha
    if name.isEmpty then
      some ((⟨[]⟩, if positive then q else -q), rest1)
    else
      some ((⟨name⟩, if positive then q else -q),
        (rest1.dropWhile isSpaceChar).dropWhile isAsciiAlpha)
  | none =>
    let name := (rest0.dropWhile isSpaceChar).takeWhile isAsciiAlpha
    if name.isEmpty then none
    else
      some ((⟨name⟩, if positive then (1 : ℚ) else -1),
        (rest0.dropWhile isSpaceChar).dropWhile isAsciiAlpha)

/-- nom `many0(parse_variable)`: parse terms until the first failure,
ignoring whatever input remains.  Each successful `parseTerm` consumes at
least one character, so `cs.length + 1` fuel never runs out. -/
def parseTermsFuel : ℕ → List Char → List (Variable × ℚ)
  | 0, _ => []
  | fuel + 1, cs =>
    match parseTerm cs with
    | none => []
    | some (t, rest) => t :: parseTermsFuel fuel rest

namespace LinearFunction

/-- `impl FromStr for LinearFunction`: run `many0(parse_variable)` and
fold the terms into a function (`linear_func.constant += coeff` for the
empty name, `linear_func[var] += coeff` otherwise).  The source's
`many0(...).unwrap()` cannot fail, so the result is always `ok`. -/
def fromStr (s : String) : Except Unit LinearFunction :=
  .ok ((parseTermsFuel (s.data.length + 1) s.data).foldl
    (fun lf p =>
      if p.1 = ⟨[]⟩ then ⟨lf.constant + p.2, lf.coefficients⟩
      else ⟨lf.constant, updateAdd lf.coefficients p.1 p.2⟩)
    zero)

end LinearFunction

/-!
## Operator, Constraint, Constraints (`constraint.rs`)
-/

/-- `Operator`: the five relational operators. -/
inductive Operator where
  | Equal
  | Less
  | Greater
  | LessEqual
  | GreaterEqual
deriving DecidableEq, Repr, Inhabited

/-- `Operator::inverse`. -/
def Operator.inverse : Operator → Operator
  | .Equal => .Equal
  | .Less => .GreaterEqual
  | .Greater => .LessEqual
  | .LessEqual => .Greater
  | .GreaterEqual => .Less

/-- `impl FromStr for Operator`: trim, then match one of the five symbols. -/
def Operator.fromStr (s : String) : Except Unit Operator :=
  match (s.data.dropWhile isSpaceChar).reverse.dropWhile isSpaceChar |>.reverse with
  | ['='] => .ok .Equal
  | ['<'] => .ok .Less
  | ['>'] => .ok .Greater
  | ['<', '='] => .ok .LessEqual
  | ['>', '='] => .ok .GreaterEqual
  | _ => .error ()

/-- `Constraint`: `left operator right`. -/
structure Constraint where
  left : LinearFunction
  operator : Operator
  right : LinearFunction
deriving DecidableEq, Repr, Inhabited

namespace Constraint

/-- `Constraint::normalize`: when the right side contains `var`, divide
both sides by its right-hand coefficient. -/
def normalize (c : Constraint) (v : Variable) : Constraint :=
  if c.right.contains v then
    ⟨c.left.div (c.right.getCoeff v), c.operator, c.right.div (c.right.getCoeff v)⟩
  else c

/-- `impl SubAssign<LinearFunction> for Constraint`: subtract from both sides. -/
def subLF (c : Constraint) (f : LinearFunction) : Constraint :=
  ⟨c.left.sub f, c.operator, c.right.sub f⟩

/-- `impl Neg for Constraint`: negate both sides and invert the operator. -/
def negC (c : Constraint) : Constraint :=
  ⟨c.left.neg, c.operator.inverse, c.right.neg⟩

/-- `Constraint::is_valid_linear_programm`: canonical row shape. -/
def is_valid_linear_programm (c : Constraint) : Bool :=
  c.left.is_one_normalized_var && c.operator == Operator.Equal

end Constraint

/-- `union` (free function in `constraint.rs`): `a` followed by the
elements of `b` not contained in the original `a`. -/
def union (a b : List Variable) : List Variable :=
  a ++ b.filter (fun v => ¬ a.contains v)

/-- `Constraint::non_gap_variables`. -/
def Constraint.non_gap_variables (c : Constraint) : List Variable :=
  union c.left.non_gap_variables c.right.non_gap_variables

/-- nom `many_till(anychar, parse_op)` inside `FromStr for Constraint`:
scan for the first position where one of the operator tags (tried in the
order `<=`, `>=`, `=`, `<`, `>`) matches; return the consumed prefix,
the matched tag and the rest. -/
def tryOps (cs : List Char) : Option (String × List Char) :=
  match cs with
  | '<' :: '=' :: r => some ("<=", r)
  | '>' :: '=' :: r => some (">=", r)
  | '=' :: r => some ("=", r)
  | '<' :: r => some ("<", r)
  | '>' :: r => some (">", r)
  | _ => none

/-- Scan a character list for the first operator occurrence. -/
def scanOp : List Char → Option (List Char × String × List Char)
  | [] => none
  | c :: rest =>
    match tryOps (c :: rest) with
    | some (op, after) => some ([], op, after)
    | none => (scanOp rest).map (fun t => (c :: t.1, t.2.1, t.2.2))

/-- `impl FromStr for Constraint`: split at the first operator, parse
both sides as linear functions and the tag as an operator. -/
def Constraint.fromStr (s : String) : Except Unit Constraint :=
  match scanOp s.data with
  | none => .error ()
  | some (lhs, op, rhs) => do
    let left ← LinearFunction.fromStr ⟨lhs⟩
    let o ← Operator.fromStr op
    let right ← LinearFunction.fromStr ⟨rhs⟩
    .ok ⟨left, o, right⟩

/-- `Constraints`: the ordered list of stored rows. -/
structure Constraints where
  inner : List Constraint
deriving DecidableEq, Repr, Inhabited

/-- Decimal digit character for `n < 10`. -/
def digitChar (n : ℕ) : Char := Char.ofNat (48 + n)

/-- Fuel-driven decimal expansion (structural recursion so that proofs
can evaluate it); `fuel > n` suffices. -/
def natDigitsAux : ℕ → ℕ → List Char
  | 0, _ => []
  | fuel + 1, n =>
    if n < 10 then [digitChar n]
    else natDigitsAux fuel (n / 10) ++ [digitChar (n % 10)]

/-- Decimal digits of a natural number, most significant first
(the rendering Rust's `format!("{}", count)` produces). -/
def natDigits (n : ℕ) : List Char := natDigitsAux (n + 1) n

/-- Decimal rendering of a natural number. -/
def formatNat (n : ℕ) : String := ⟨natDigits n⟩

/-- The fresh slack name `format!("{GAP_VARIABLE_IDENTIFIER}{}", count)`. -/
def gapName (n : ℕ) : Variable :=
  LinearFunction.gapMarker ++ formatNat n

namespace Constraints

/-- `Constraints::gap_variables_count`: the number of stored rows. -/
def gap_variables_count (cs : Constraints) : ℕ := cs.inner.length

/-- `Constraints::add_constraint` (the standardization step).  The
`next_gap_var` closure reads `gap_variables_count` — the number of rows
stored *before* anything is pushed — so in the `Equal` case both fresh
slack variables receive the same name. -/
def add_constraint (cs : Constraints) (c : Constraint) : Constraints :=
  let name := gapName cs.inner.length
  match c.operator with
  | .LessEqual | .Less =>
    ⟨cs.inner ++ [⟨LinearFunction.single_variable name, .Equal, c.right.sub c.left⟩]⟩
  | .GreaterEqual | .Greater =>
    ⟨cs.inner ++ [⟨LinearFunction.single_variable name, .Equal, c.left.sub c.right⟩]⟩
  | .Equal =>
    ⟨cs.inner ++
      [⟨LinearFunction.single_variable name, .Equal, c.right.sub c.left⟩,
       ⟨LinearFunction.single_variable name, .Equal, c.right.sub c.left⟩]⟩

/-- `Constraints::compile`: parse each non-blank line as a constraint
and feed it through `add_constraint`. -/
def compile (s : String) : Except Unit Constraints :=
  ((s.data.splitOn '\n').filter
      (fun l => ¬ (l.dropWhile isSpaceChar).reverse.dropWhile isSpaceChar = [])).foldlM
    (fun cs line => (Constraint.fromStr ⟨line⟩).map cs.add_constraint)
    ⟨[]⟩

/-- The ratio-test quantity `right.constant / right[var]` of a row. -/
def restrictionOf (c : Constraint) (v : Variable) : ℚ :=
  c.right.constant / c.right.getCoeff v

/-- The eligibility filter of the ratio test: the right side contains
`var` with a coefficient `≤ 0`. -/
def eligibleRow (c : Constraint) (v : Variable) : Bool :=
  c.right.contains v && decide (c.right.getCoeff v ≤ 0)

/-- `Constraints::most_restrictive`: among the eligible rows, the index
of the one maximizing the ratio.  Rust's `Iterator::max_by` returns the
*last* of several equally maximal elements, mirrored by the fold. -/
def most_restrictive (cs : Constraints) (v : Variable) : Option ℕ :=
  match (cs.inner.enum.filter (fun p => eligibleRow p.2 v)) with
  | [] => none
  | x :: xs =>
    some ((xs.foldl
      (fun acc y => if restrictionOf acc.2 v > restrictionOf y.2 v then acc else y) x).1)

/-- `Constraints::pivot`: normalize the targeted row by `var`, rearrange
it into `var = new_rhs` form, then substitute the new right-hand side
for `var` in every row's right side (the pivoted row included). -/
def pivot (cs : Constraints) (idx : ℕ) (v : Variable) : Constraints :=
  let c0 := cs.inner.getD idx default
  let c1 := c0.normalize v
  let c2 := c1.subLF c1.left
  let c3 := c2.subLF (LinearFunction.single_variable v)
  let c4 := c3.negC
  let inner1 := cs.inner.set idx c4
  ⟨inner1.map (fun r => ⟨r.left, r.operator, r.right.replace v c4.right⟩)⟩

/-- `Constraints::is_valid`: every row is in canonical form. -/
def is_valid (cs : Constraints) : Bool :=
  cs.inner.all Constraint.is_valid_linear_programm

/-- `Constraints::non_gap_variables`. -/
def non_gap_variables (cs : Constraints) : List Variable :=
  cs.inner.foldl (fun acc c => union acc c.non_gap_variables) []

end Constraints

/-!
## LinearProgram and Simplex (`lib.rs`)
-/

/-- Rust's `Iterator::position`: the index of the first element equal to
`v`. -/
def positionOf : List Variable → Variable → Option ℕ
  | [], _ => none
  | w :: l, v => if w = v then some 0 else (positionOf l v).map (· + 1)

/-- `LinearProgram`: an objective paired with a constraint set. -/
structure LinearProgram where
  linear_function : LinearFunction
  constraints : Constraints
deriving DecidableEq, Repr, Inhabited

namespace LinearProgram

/-- `LinearProgram::pivot`: select the leaving row by the ratio test,
pivot the constraint set, and substitute the entering variable's new
value into the objective.  When `most_restrictive` finds no row the
source panics (`unwrap_or_else(|| panic!(...))`), modelled as `none`. -/
def pivot (lp : LinearProgram) (v : Variable) : Option LinearProgram :=
  match lp.constraints.most_restrictive v with
  | none => none
  | some idx =>
    let cs := lp.constraints.pivot idx v
    some ⟨lp.linear_function.replace v (cs.inner.getD idx default).right, cs⟩

/-- `LinearProgram::is_optimal`. -/
def is_optimal (lp : LinearProgram) : Bool :=
  lp.linear_function.no_positive_coefficient

/-- `LinearProgram::is_valid`. -/
def is_valid (lp : LinearProgram) : Bool :=
  lp.constraints.is_valid

/-- `LinearProgram::non_gap_variables`: the structural variables of the
objective and the constraints, sorted alphabetically. -/
def non_gap_variables (lp : LinearProgram) : List Variable :=
  List.insertionSort varLe
    (union lp.linear_function.non_gap_variables lp.constraints.non_gap_variables)

/-- `LinearProgram::point`: for a valid program, the vector indexed by
the sorted structural variables, where each row whose left side is a
single structural variable writes its right-hand constant at that
variable's index.  On an invalid program the source panics, modelled as
`none`. -/
def point (lp : LinearProgram) : Option (List ℚ) :=
  if lp.is_valid then
    some (lp.constraints.inner.foldl
      (fun pt c =>
        match c.left.name_single_variable with
        | some v =>
          match positionOf lp.non_gap_variables v with
          | some i => pt.set i c.right.constant
          | none => pt
        | none => pt)
      (List.replicate lp.non_gap_variables.length 0))
  else none

end LinearProgram

/-- `Simplex`: a position and an append-only history of snapshots. -/
structure Simplex where
  index : ℕ
  historic : List LinearProgram
deriving DecidableEq, Repr, Inhabited

namespace Simplex

/-- `Simplex::current_state`. -/
def current_state (s : Simplex) : LinearProgram :=
  s.historic.getD s.index default

/-- `Simplex::next_step`: when the current objective still has a
positive coefficient, pivot (appending a fresh snapshot only at the
frontier of the history) and move forward; otherwise do nothing.  A
panic inside `pivot` (unbounded program) is modelled as `none`. -/
def next_step (bland : Bool) (s : Simplex) : Option Simplex :=
  match LinearFunction.fpcOpt bland (current_state s).linear_function with
  | none => some s
  | some v =>
    if s.index = s.historic.length - 1 then
      match (current_state s).pivot v with
      | none => none
      | some lp => some ⟨s.index + 1, s.historic ++ [lp]⟩
    else some ⟨s.index + 1, s.historic⟩

/-- `Simplex::previous_step`: move the pointer back, never touching the
history. -/
def previous_step (s : Simplex) : Simplex :=
  if s.index = 0 then s else ⟨s.index - 1, s.historic⟩

/-- `impl From<LinearProgram> for Simplex`. -/
def fromLP (lp : LinearProgram) : Simplex := ⟨0, [lp]⟩

/-- Iterated `next_step` (the "repeatedly calling advance" of the spec). -/
def runSteps (bland : Bool) : ℕ → Simplex → Option Simplex
  | 0, s => some s
  | n + 1, s =>
    match next_step bland s with
    | none => none
    | some s' => runSteps bland n s'

end Simplex

/-- `Constraints::maximize`: wrap the program in a fresh execution context. -/
def Constraints.maximize (cs : Constraints) (f : LinearFunction) : Simplex :=
  Simplex.fromLP ⟨f, cs⟩

/-- The key-distinctness invariant every Rust `HashMap` guarantees. -/
def LinearFunction.wfKeys (f : LinearFunction) : Prop :=
  (f.coefficients.map Prod.fst).Nodup

instance (f : LinearFunction) : Decidable f.wfKeys :=
  inferInstanceAs (Decidable (List.Nodup _))

/-- Key distinctness for every map stored in a linear program. -/
def LinearProgram.wfKeys (lp : LinearProgram) : Prop :=
  lp.linear_function.wfKeys ∧
    ∀ c ∈ lp.constraints.inner, c.left.wfKeys ∧ c.right.wfKeys

instance (lp : LinearProgram) : Decidable lp.wfKeys :=
  inferInstanceAs (Decidable (_ ∧ _))

/-- The `Iterator::max_by` fold: keep the accumulator only when its
ratio is strictly greater, so ties go to the later element. -/
def maxStep (v : Variable) (acc y : ℕ × Constraint) : ℕ × Constraint :=
  if Constraints.restrictionOf acc.2 v > Constraints.restrictionOf y.2 v then acc else y

/-- The row-write step of `LinearProgram::point`. -/
def pointStep (vars : List Variable) (pt : List ℚ) (c : Constraint) : List ℚ :=
  match c.left.name_single_variable with
  | some v =>
    match positionOf vars v with
    | some i => pt.set i c.right.constant
    | none => pt
  | none => pt

instance {ε α : Type} [DecidableEq ε] [DecidableEq α] : DecidableEq (Except ε α) := fun a b =>
  match a, b with
  | .ok x, .ok y =>
    if h : x = y then isTrue (by rw [h]) else isFalse (fun hc => h (Except.ok.injEq .. ▸ hc))
  | .error x, .error y =>
    if h : x = y then isTrue (by rw [h]) else isFalse (fun hc => h (Except.error.injEq .. ▸ hc))
  | .ok _, .error _ => isFalse (fun hc => Except.noConfusion hc)
  | .error _, .ok _ => isFalse (fun hc => Except.noConfusion hc)

/-!
## Helper lemmas

The Batteries `Rat` arithmetic operations are `@[irreducible]`; concrete
runs of the embedded algorithms are evaluated by `decide`, which needs
them to unfold.
-/

attribute [local semireducible] Rat.add Rat.mul Rat.sub Rat.inv

theorem charListLe_total : ∀ a b, charListLe a b = true ∨ charListLe b a = true
  | [], _ => Or.inl rfl
  | _ :: _, [] => Or.inr rfl
  | a :: as, b :: bs => by
    simp only [charListLe]
    rcases Nat.lt_trichotomy a.toNat b.toNat with h | h | h
    · simp [h]
    · have h1 : ¬ a.toNat < b.toNat := by omega
      have h2 : ¬ b.toNat < a.toNat := by omega
      simpa [h1, h2] using charListLe_total as bs
    · simp [h, Nat.lt_asymm h]

theorem charListLe_trans :
    ∀ a b c, charListLe a b = true → charListLe b c = true → charListLe a c = true
  | [], _, _ => by intro _ _; rfl
  | _ :: _, [], _ => by intro h _; simp [charListLe] at h
  | _ :: _, _ :: _, [] => by intro _ h; simp [charListLe] at h
  | a :: as, b :: bs, c :: cs => by
    intro hab hbc
    simp only [charListLe] at hab hbc ⊢
    rcases Nat.lt_trichotomy a.toNat b.toNat with h1 | h1 | h1 <;>
      rcases Nat.lt_trichotomy b.toNat c.toNat with h2 | h2 | h2
    all_goals
      first
      | (exfalso; revert hab; simp [h1]; omega)
      | (exfalso; revert hbc; simp [h2]; omega)
      | skip
    · have : a.toNat < c.toNat := by omega
      simp [this]
    · have : a.toNat < c.toNat := by omega
      simp [this]
    · have : a.toNat < c.toNat := by omega
      simp [this]
    · have h1' : ¬ a.toNat < b.toNat := by omega
      have h2' : ¬ b.toNat < c.toNat := by omega
      have hac : ¬ a.toNat < c.toNat := by omega
      have hca : ¬ c.toNat < a.toNat := by omega
      simp only [h1', if_false, if_neg (by omega : ¬ b.toNat < a.toNat)] at hab
      simp only [h2', if_false, if_neg (by omega : ¬ c.toNat < b.toNat)] at hbc
      simp only [hac, if_false, if_neg hca]
      exact charListLe_trans as bs cs hab hbc

instance : IsTotal Variable varLe := ⟨fun a b => charListLe_total a.data b.data⟩

instance : IsTrans Variable varLe :=
  ⟨fun a b c => charListLe_trans a.data b.data c.data⟩

instance : IsTotal (Variable × ℚ) keyLe := ⟨fun p q => charListLe_total p.1.data q.1.data⟩

instance : IsTrans (Variable × ℚ) keyLe :=
  ⟨fun p q s => charListLe_trans p.1.data q.1.data s.1.data⟩


theorem charListLe_refl : ∀ a, charListLe a a = true
  | [] => rfl
  | a :: as => by simp [charListLe, charListLe_refl as]

theorem natDigitsAux_eq_of_lt :
    ∀ fuel fuel' n, n < fuel → n < fuel' → natDigitsAux fuel n = natDigitsAux fuel' n
  | 0, _, _ => by omega
  | _ + 1, 0, _ => by omega
  | fuel + 1, fuel' + 1, n => by
    intro h h'
    simp only [natDigitsAux]
    by_cases h10 : n < 10
    · simp [h10]
    · have hd : n / 10 < n := Nat.div_lt_self (by omega) (by omega)
      simp only [h10, if_false]
      rw [natDigitsAux_eq_of_lt fuel fuel' (n / 10) (by omega) (by omega)]

theorem natDigits_of_lt {n : ℕ} (h : n < 10) : natDigits n = [digitChar n] := by
  simp [natDigits, natDigitsAux, h]

theorem natDigits_of_ge {n : ℕ} (h : 10 ≤ n) :
    natDigits n = natDigits (n / 10) ++ [digitChar (n % 10)] := by
  have h1 : natDigits n = if n < 10 then [digitChar n]
      else natDigitsAux n (n / 10) ++ [digitChar (n % 10)] := rfl
  rw [h1, if_neg (Nat.not_lt.mpr h),
    natDigitsAux_eq_of_lt n (n / 10 + 1) (n / 10)
      (Nat.div_lt_self (by omega) (by omega)) (by omega)]
  rfl

theorem natDigits_ne_nil (n : ℕ) : natDigits n ≠ [] := by
  by_cases h : n < 10
  · simp [natDigits_of_lt h]
  · simp [natDigits_of_ge (by omega : 10 ≤ n)]

theorem digitChar_inj :
    ∀ a, a < 10 → ∀ b, b < 10 → digitChar a = digitChar b → a = b := by decide

theorem natDigits_inj : ∀ a b, natDigits a = natDigits b → a = b := by
  intro a
  induction a using Nat.strong_induction_on with
  | _ a ih =>
    intro b hab
    by_cases ha : a < 10 <;> by_cases hb : b < 10
    · rw [natDigits_of_lt ha, natDigits_of_lt hb] at hab
      exact digitChar_inj a ha b hb (List.cons.injEq .. ▸ hab |>.1)
    · exfalso
      rw [natDigits_of_lt ha, natDigits_of_ge (by omega : 10 ≤ b)] at hab
      have := congrArg List.length hab
      have hne := natDigits_ne_nil (b / 10)
      simp only [List.length_cons, List.length_nil, List.length_append] at this
      cases hlb : natDigits (b / 10) with
      | nil => exact hne hlb
      | cons x xs => rw [hlb] at this; simp at this
    · exfalso
      rw [natDigits_of_lt hb, natDigits_of_ge (by omega : 10 ≤ a)] at hab
      have := congrArg List.length hab
      have hne := natDigits_ne_nil (a / 10)
      simp only [List.length_cons, List.length_nil, List.length_append] at this
      cases hla : natDigits (a / 10) with
      | nil => exact hne hla
      | cons x xs => rw [hla] at this; simp at this
    · rw [natDigits_of_ge (by omega : 10 ≤ a), natDigits_of_ge (by omega : 10 ≤ b)] at hab
      have hrev := congrArg List.reverse hab
      simp only [List.reverse_append, List.reverse_cons, List.reverse_nil,
        List.nil_append, List.cons_append] at hrev
      have hhead : digitChar (a % 10) = digitChar (b % 10) := (List.cons.injEq .. ▸ hrev).1
      have htail : (natDigits (a / 10)).reverse = (natDigits (b / 10)).reverse :=
        (List.cons.injEq .. ▸ hrev).2
      have hmod : a % 10 = b % 10 :=
        digitChar_inj _ (Nat.mod_lt _ (by omega)) _ (Nat.mod_lt _ (by omega)) hhead
      have hdiv : a / 10 = b / 10 :=
        ih (a / 10) (Nat.div_lt_self (by omega) (by omega)) (b / 10)
          (List.reverse_injective htail)
      omega

theorem formatNat_inj {a b : ℕ} (h : formatNat a = formatNat b) : a = b :=
  natDigits_inj a b (congrArg String.data h)

theorem gapName_inj {a b : ℕ} (h : gapName a = gapName b) : a = b := by
  apply formatNat_inj
  have hdata : (gapName a).data = (gapName b).data := by rw [h]
  simp only [gapName, String.data_append] at hdata
  exact String.ext (List.append_cancel_left hdata)

theorem single_variable_one_normalized (v : Variable) :
    (LinearFunction.single_variable v).is_one_normalized_var = true := by
  simp [LinearFunction.is_one_normalized_var, LinearFunction.single_variable, List.filter]

/-!
## Claim C1
-/

/-- Claim C1 (corrected): compiling the constraints
`x <= 200, y <= 300, x + y + z <= 400, y + 3z <= 600` with objective
`x + 6y + 13z` and repeatedly advancing with the deterministic rule does
terminate in an optimal state at `x = 0, y = 300, z = 100` — but the
objective value there is `3100`, not the claimed `1800`. -/
theorem C1_counterexample :
    ((do
      let cs ← (Constraints.compile
        "x <= 200\ny <= 300\nx + y + z <= 400\ny + 3z <= 600").toOption
      let obj ← (LinearFunction.fromStr "x + 6y + 13z").toOption
      let s ← Simplex.runSteps true 4 (cs.maximize obj)
      pure (s.current_state.is_optimal, s.current_state.linear_function.constant))
      = some (true, (3100 : ℚ))) ∧ (3100 : ℚ) ≠ 1800 := by
  constructor
  · decide
  · decide

/-- Claim C1 (amended): the compiled program reaches, after four
`next_step true` pivots, a state that is optimal, whose objective value
is `3100`, whose extracted point is `x = 0, y = 300, z = 100`, and which
is a fixed point of further `next_step true` calls. -/
theorem C1_amended :
    (do
      let cs ← (Constraints.compile
        "x <= 200\ny <= 300\nx + y + z <= 400\ny + 3z <= 600").toOption
      let obj ← (LinearFunction.fromStr "x + 6y + 13z").toOption
      let s ← Simplex.runSteps true 4 (cs.maximize obj)
      let pt ← s.current_state.point
      pure (s.current_state.is_optimal, s.current_state.linear_function.constant, pt,
        decide (Simplex.next_step true s = some s)))
    = some (true, (3100 : ℚ), [0, 300, 100], true) := by decide

/-!
## Claim C2
-/

/-- Claim C2 (code bug): for the objective `x` under the single
constraint `y <= 5`, the entering variable is `x`, the ratio test finds
no eligible row, and `next_step` then *panics* inside
`LinearProgram::pivot` (`unwrap_or_else(|| panic!(...))`, modelled as
`none`) instead of returning the modeled `SimplexError::Unbounded`
value that the spec (and the caller in `app.rs`) require. -/
theorem C2_panics_on_unbounded :
    (Constraints.compile "y <= 5").toOption =
      some ⟨[⟨LinearFunction.single_variable "ε0", .Equal, ⟨5, [("y", -1)]⟩⟩]⟩ ∧
    (LinearFunction.fromStr "x").toOption = some ⟨0, [("x", 1)]⟩ ∧
    LinearFunction.fpcOpt true ⟨0, [("x", 1)]⟩ = some "x" ∧
    Constraints.most_restrictive
      ⟨[⟨LinearFunction.single_variable "ε0", .Equal, ⟨5, [("y", -1)]⟩⟩]⟩ "x" = none ∧
    Simplex.next_step true
      ((⟨[⟨LinearFunction.single_variable "ε0", .Equal, ⟨5, [("y", -1)]⟩⟩]⟩ :
        Constraints).maximize ⟨0, [("x", 1)]⟩) = none := by decide

/-!
## Claim C3
-/

/-- Claim C3 (confirmed): `add_constraint` pushes exactly one row
`s = right - left` for `<=`/`<`, exactly one row `s = left - right` for
`>=`/`>`, and exactly two identical rows `s = right - left` for `=`;
every pushed row has operator `Equal` and a left side that is a single
fresh variable with coefficient 1 (the canonical shape). -/
theorem C3_add_constraint_standardizes (cs : Constraints) (c : Constraint) :
    ((cs.add_constraint c).inner.length =
      cs.inner.length + (if c.operator = Operator.Equal then 2 else 1)) ∧
    ((c.operator = Operator.LessEqual ∨ c.operator = Operator.Less) →
      (cs.add_constraint c).inner = cs.inner ++
        [⟨LinearFunction.single_variable (gapName cs.inner.length), Operator.Equal,
          c.right.sub c.left⟩]) ∧
    ((c.operator = Operator.GreaterEqual ∨ c.operator = Operator.Greater) →
      (cs.add_constraint c).inner = cs.inner ++
        [⟨LinearFunction.single_variable (gapName cs.inner.length), Operator.Equal,
          c.left.sub c.right⟩]) ∧
    (c.operator = Operator.Equal →
      (cs.add_constraint c).inner = cs.inner ++
        [⟨LinearFunction.single_variable (gapName cs.inner.length), Operator.Equal,
          c.right.sub c.left⟩,
         ⟨LinearFunction.single_variable (gapName cs.inner.length), Operator.Equal,
          c.right.sub c.left⟩]) ∧
    (∀ r ∈ (cs.add_constraint c).inner, r ∈ cs.inner ∨
      (r.operator = Operator.Equal ∧
        r.left = LinearFunction.single_variable (gapName cs.inner.length) ∧
        r.left.is_one_normalized_var = true)) := by
  have hmem : ∀ rows : List Constraint,
      (∀ r ∈ rows, r.operator = Operator.Equal ∧
        r.left = LinearFunction.single_variable (gapName cs.inner.length) ∧
        r.left.is_one_normalized_var = true) →
      ∀ r ∈ cs.inner ++ rows, r ∈ cs.inner ∨
        (r.operator = Operator.Equal ∧
          r.left = LinearFunction.single_variable (gapName cs.inner.length) ∧
          r.left.is_one_normalized_var = true) := by
    intro rows hrows r hr
    rcases List.mem_append.mp hr with hr | hr
    · exact Or.inl hr
    · exact Or.inr (hrows r hr)
  have hrow : ∀ rhs : LinearFunction,
      ∀ r ∈ [(⟨LinearFunction.single_variable (gapName cs.inner.length),
          Operator.Equal, rhs⟩ : Constraint)],
        r.operator = Operator.Equal ∧
        r.left = LinearFunction.single_variable (gapName cs.inner.length) ∧
        r.left.is_one_normalized_var = true := by
    intro rhs r hr
    rw [List.mem_singleton.mp hr]
    exact ⟨rfl, rfl, single_variable_one_normalized _⟩
  have hrow2 : ∀ rhs : LinearFunction,
      ∀ r ∈ [(⟨LinearFunction.single_variable (gapName cs.inner.length),
          Operator.Equal, rhs⟩ : Constraint),
        ⟨LinearFunction.single_variable (gapName cs.inner.length), Operator.Equal, rhs⟩],
        r.operator = Operator.Equal ∧
        r.left = LinearFunction.single_variable (gapName cs.inner.length) ∧
        r.left.is_one_normalized_var = true := by
    intro rhs r hr
    rcases List.mem_cons.mp hr with hr | hr
    · subst hr; exact ⟨rfl, rfl, single_variable_one_normalized _⟩
    · rw [List.mem_singleton.mp hr]
      exact ⟨rfl, rfl, single_variable_one_normalized _⟩
  cases hop : c.operator
  case Equal =>
    refine ⟨by simp [Constraints.add_constraint, hop], ?_, ?_, ?_, ?_⟩
    · intro h; rcases h with h | h <;> exact Operator.noConfusion h
    · intro h; rcases h with h | h <;> exact Operator.noConfusion h
    · intro _; simp [Constraints.add_constraint, hop]
    · intro r hr
      simp only [Constraints.add_constraint, hop] at hr
      exact hmem _ (hrow2 _) r hr
  case Less =>
    refine ⟨by simp [Constraints.add_constraint, hop], ?_, ?_, ?_, ?_⟩
    · intro _; simp [Constraints.add_constraint, hop]
    · intro h; rcases h with h | h <;> exact Operator.noConfusion h
    · intro h; exact Operator.noConfusion h
    · intro r hr
      simp only [Constraints.add_constraint, hop] at hr
      exact hmem _ (hrow _) r hr
  case LessEqual =>
    refine ⟨by simp [Constraints.add_constraint, hop], ?_, ?_, ?_, ?_⟩
    · intro _; simp [Constraints.add_constraint, hop]
    · intro h; rcases h with h | h <;> exact Operator.noConfusion h
    · intro h; exact Operator.noConfusion h
    · intro r hr
      simp only [Constraints.add_constraint, hop] at hr
      exact hmem _ (hrow _) r hr
  case Greater =>
    refine ⟨by simp [Constraints.add_constraint, hop], ?_, ?_, ?_, ?_⟩
    · intro h; rcases h with h | h <;> exact Operator.noConfusion h
    · intro _; simp [Constraints.add_constraint, hop]
    · intro h; exact Operator.noConfusion h
    · intro r hr
      simp only [Constraints.add_constraint, hop] at hr
      exact hmem _ (hrow _) r hr
  case GreaterEqual =>
    refine ⟨by simp [Constraints.add_constraint, hop], ?_, ?_, ?_, ?_⟩
    · intro h; rcases h with h | h <;> exact Operator.noConfusion h
    · intro _; simp [Constraints.add_constraint, hop]
    · intro h; exact Operator.noConfusion h
    · intro r hr
      simp only [Constraints.add_constraint, hop] at hr
      exact hmem _ (hrow _) r hr

/-- Witness for C3 at a concrete `<=` constraint. -/
theorem C3_witness :
    ((⟨[]⟩ : Constraints).add_constraint
      ⟨LinearFunction.zero, Operator.LessEqual, LinearFunction.zero⟩).inner =
      [⟨LinearFunction.single_variable (gapName 0), Operator.Equal,
        LinearFunction.zero.sub LinearFunction.zero⟩] :=
  (C3_add_constraint_standardizes ⟨[]⟩
    ⟨LinearFunction.zero, Operator.LessEqual, LinearFunction.zero⟩).2.1 (Or.inl rfl)

/-!
## Claim C4
-/

theorem add_constraint_ineq_inner (cs : Constraints) (c : Constraint)
    (h : c.operator ≠ Operator.Equal) :
    ∃ rhs, (cs.add_constraint c).inner =
      cs.inner ++ [⟨LinearFunction.single_variable (gapName cs.inner.length),
        Operator.Equal, rhs⟩] := by
  cases hop : c.operator
  case Equal => exact absurd hop h
  case Less => exact ⟨c.right.sub c.left, by simp [Constraints.add_constraint, hop]⟩
  case Greater => exact ⟨c.left.sub c.right, by simp [Constraints.add_constraint, hop]⟩
  case LessEqual => exact ⟨c.right.sub c.left, by simp [Constraints.add_constraint, hop]⟩
  case GreaterEqual => exact ⟨c.left.sub c.right, by simp [Constraints.add_constraint, hop]⟩

theorem addAll_ineq_spec :
    ∀ (l : List Constraint), (∀ c ∈ l, c.operator ≠ Operator.Equal) →
    ∀ (cs : Constraints),
      (l.foldl Constraints.add_constraint cs).inner.length = cs.inner.length + l.length ∧
      (∀ i, i < cs.inner.length →
        (l.foldl Constraints.add_constraint cs).inner.getD i default =
          cs.inner.getD i default) ∧
      (∀ i, cs.inner.length ≤ i → i < cs.inner.length + l.length →
        ((l.foldl Constraints.add_constraint cs).inner.getD i default).left =
          LinearFunction.single_variable (gapName i))
  | [], _, cs => by
    refine ⟨by simp, fun i _ => rfl, fun i h1 h2 => ?_⟩
    simp only [List.length_nil, Nat.add_zero] at h2
    omega
  | c :: l, h, cs => by
    have hc : c.operator ≠ Operator.Equal := h c (List.mem_cons_self c l)
    obtain ⟨rhs, hrhs⟩ := add_constraint_ineq_inner cs c hc
    have hlen : (cs.add_constraint c).inner.length = cs.inner.length + 1 := by
      rw [hrhs]; simp
    obtain ⟨ih1, ih2, ih3⟩ :=
      addAll_ineq_spec l (fun d hd => h d (List.mem_cons_of_mem c hd)) (cs.add_constraint c)
    have hfold : (c :: l).foldl Constraints.add_constraint cs =
        l.foldl Constraints.add_constraint (cs.add_constraint c) := rfl
    refine ⟨by rw [hfold, ih1, hlen]; simp [List.length_cons]; omega, ?_, ?_⟩
    · intro i hi
      rw [hfold, ih2 i (by omega)]
      rw [hrhs, List.getD_eq_getElem?_getD, List.getD_eq_getElem?_getD,
        List.getElem?_append_left hi]
    · intro i h1 h2
      rcases Nat.eq_or_lt_of_le h1 with heq | hlt
      · rw [hfold, ih2 i (by omega), hrhs, List.getD_eq_getElem?_getD, ← heq,
          List.getElem?_concat_length]
        rfl
      · exact ih3 i (by omega) (by rw [hlen]; simp [List.length_cons] at h2 ⊢; omega)

/-- Claim C4 (corrected): the two rows pushed for one equality
constraint both carry the *same* fresh slack name — the `next_gap_var`
closure is evaluated twice before either row is pushed, so both reads of
`gap_variables_count` see the same row count.  Uniqueness fails within
an equality pair. -/
theorem C4_counterexample :
    ((⟨[]⟩ : Constraints).add_constraint
        ⟨⟨0, [("x", 1)]⟩, Operator.Equal, ⟨1, []⟩⟩).inner.length = 2 ∧
    (((⟨[]⟩ : Constraints).add_constraint
        ⟨⟨0, [("x", 1)]⟩, Operator.Equal, ⟨1, []⟩⟩).inner.getD 0 default).left =
      (((⟨[]⟩ : Constraints).add_constraint
        ⟨⟨0, [("x", 1)]⟩, Operator.Equal, ⟨1, []⟩⟩).inner.getD 1 default).left := by
  decide

/-- Claim C4 (amended): slack names are the reserved marker followed by
the number of rows stored when the constraint is processed; for any
sequence of *inequality* constraints added to an empty set the stored
left-hand names are `gapName 0, gapName 1, …` and pairwise distinct,
while the two rows of one equality constraint share a single name (see
the counterexample). -/
theorem C4_amended (l : List Constraint) (h : ∀ c ∈ l, c.operator ≠ Operator.Equal) :
    ((l.foldl Constraints.add_constraint ⟨[]⟩).inner.length = l.length) ∧
    (∀ i, i < l.length →
      ((l.foldl Constraints.add_constraint ⟨[]⟩).inner.getD i default).left =
        LinearFunction.single_variable (gapName i)) ∧
    (∀ i j, i < l.length → j < l.length → i ≠ j →
      ((l.foldl Constraints.add_constraint ⟨[]⟩).inner.getD i default).left ≠
        ((l.foldl Constraints.add_constraint ⟨[]⟩).inner.getD j default).left) := by
  obtain ⟨h1, _, h3⟩ := addAll_ineq_spec l h ⟨[]⟩
  have hlen : (⟨[]⟩ : Constraints).inner.length = 0 := rfl
  refine ⟨by omega, fun i hi => h3 i (by omega) (by omega), ?_⟩
  intro i j hi hj hne heq
  rw [h3 i (by omega) (by omega), h3 j (by omega) (by omega)] at heq
  have : gapName i = gapName j := by
    have := congrArg LinearFunction.coefficients heq
    simp only [LinearFunction.single_variable, List.cons.injEq, Prod.mk.injEq] at this
    exact this.1.1
  exact hne (gapName_inj this)

/-- Witness for C4 on two `<=` constraints. -/
theorem C4_witness :
    (([⟨LinearFunction.zero, Operator.LessEqual, LinearFunction.zero⟩,
       ⟨LinearFunction.zero, Operator.Less, LinearFunction.zero⟩] :
        List Constraint).foldl Constraints.add_constraint ⟨[]⟩).inner.length = 2 ∧
    (∀ i, i < 2 →
      ((([⟨LinearFunction.zero, Operator.LessEqual, LinearFunction.zero⟩,
          ⟨LinearFunction.zero, Operator.Less, LinearFunction.zero⟩] :
          List Constraint).foldl Constraints.add_constraint ⟨[]⟩).inner.getD i
            default).left = LinearFunction.single_variable (gapName i)) ∧
    (∀ i j, i < 2 → j < 2 → i ≠ j →
      ((([⟨LinearFunction.zero, Operator.LessEqual, LinearFunction.zero⟩,
          ⟨LinearFunction.zero, Operator.Less, LinearFunction.zero⟩] :
          List Constraint).foldl Constraints.add_constraint ⟨[]⟩).inner.getD i
            default).left ≠
        ((([⟨LinearFunction.zero, Operator.LessEqual, LinearFunction.zero⟩,
          ⟨LinearFunction.zero, Operator.Less, LinearFunction.zero⟩] :
          List Constraint).foldl Constraints.add_constraint ⟨[]⟩).inner.getD j
            default).left) :=
  C4_amended
    [⟨LinearFunction.zero, Operator.LessEqual, LinearFunction.zero⟩,
     ⟨LinearFunction.zero, Operator.Less, LinearFunction.zero⟩]
    (by intro c hc; rcases List.mem_cons.mp hc with h | h
        · subst h; decide
        · rw [List.mem_singleton.mp h]; decide)

/-!
## Claim C5 machinery: indexed rows and the `max_by` fold.
-/

theorem enumFrom_mem_getElem? :
    ∀ (l : List Constraint) (n : ℕ) (p : ℕ × Constraint), p ∈ List.enumFrom n l →
      n ≤ p.1 ∧ l[p.1 - n]? = some p.2
  | [], _, _ => by simp [List.enumFrom]
  | a :: l, n, p => by
    intro h
    rcases List.mem_cons.mp h with h | h
    · subst h; simp
    · obtain ⟨h1, h2⟩ := enumFrom_mem_getElem? l (n + 1) p h
      refine ⟨by omega, ?_⟩
      have heq : p.1 - n = (p.1 - (n + 1)) + 1 := by omega
      rw [heq, List.getElem?_cons_succ]
      exact h2

theorem getElem?_mem_enumFrom :
    ∀ (l : List Constraint) (n j : ℕ) (c : Constraint), l[j]? = some c →
      (n + j, c) ∈ List.enumFrom n l
  | [], _, j, c => by simp
  | a :: l, n, 0, c => by
    intro h
    have : a = c := by simpa using h
    subst this
    exact List.mem_cons_self _ _
  | a :: l, n, j + 1, c => by
    intro h
    have hmem := getElem?_mem_enumFrom l (n + 1) j c (by simpa using h)
    have heq : n + (j + 1) = (n + 1) + j := by omega
    rw [heq]
    exact List.mem_cons_of_mem _ hmem

theorem enumFrom_pairwise :
    ∀ (l : List Constraint) (n : ℕ),
      (List.enumFrom n l).Pairwise (fun p q => p.1 < q.1)
  | [], _ => List.Pairwise.nil
  | a :: l, n => by
    refine List.Pairwise.cons ?_ (enumFrom_pairwise l (n + 1))
    intro q hq
    have := (enumFrom_mem_getElem? l (n + 1) q hq).1
    show n < q.1
    omega

theorem foldl_max_spec (v : Variable) :
    ∀ (xs : List (ℕ × Constraint)) (x : ℕ × Constraint),
      (x :: xs).Pairwise (fun p q => p.1 < q.1) →
      (xs.foldl (maxStep v) x) ∈ x :: xs ∧
      (∀ y ∈ x :: xs, Constraints.restrictionOf y.2 v ≤
        Constraints.restrictionOf (xs.foldl (maxStep v) x).2 v) ∧
      (∀ y ∈ x :: xs, Constraints.restrictionOf y.2 v =
          Constraints.restrictionOf (xs.foldl (maxStep v) x).2 v →
        y.1 ≤ (xs.foldl (maxStep v) x).1)
  | [], x, _ => by
    refine ⟨List.mem_cons_self _ _, ?_, ?_⟩
    · intro y hy
      rw [List.mem_singleton.mp hy]
      exact le_refl _
    · intro y hy _
      rw [List.mem_singleton.mp hy]
      exact Nat.le.refl
  | y0 :: xs, x, hpw => by
    have hx : ∀ z ∈ y0 :: xs, x.1 < z.1 := (List.pairwise_cons.mp hpw).1
    have hpw0 : (y0 :: xs).Pairwise (fun p q => p.1 < q.1) := (List.pairwise_cons.mp hpw).2
    have hy0 : ∀ z ∈ xs, y0.1 < z.1 := (List.pairwise_cons.mp hpw0).1
    have hxs : xs.Pairwise (fun p q => p.1 < q.1) := (List.pairwise_cons.mp hpw0).2
    have hpw' : (maxStep v x y0 :: xs).Pairwise (fun p q => p.1 < q.1) := by
      refine List.Pairwise.cons ?_ hxs
      intro z hz
      unfold maxStep
      split
      · exact hx z (List.mem_cons_of_mem _ hz)
      · exact hy0 z hz
    obtain ⟨ihmem, ihle, ihtie⟩ := foldl_max_spec v xs (maxStep v x y0) hpw'
    have hfold : (y0 :: xs).foldl (maxStep v) x = xs.foldl (maxStep v) (maxStep v x y0) := rfl
    rw [hfold]
    have hstep_mem : maxStep v x y0 = x ∨ maxStep v x y0 = y0 := by
      unfold maxStep; split
      · exact Or.inl rfl
      · exact Or.inr rfl
    refine ⟨?_, ?_, ?_⟩
    · rcases List.mem_cons.mp ihmem with h | h
      · rcases hstep_mem with hs | hs <;> rw [h, hs]
        · exact List.mem_cons_self _ _
        · exact List.mem_cons_of_mem _ (List.mem_cons_self _ _)
      · exact List.mem_cons_of_mem _ (List.mem_cons_of_mem _ h)
    · intro y hy
      have hstep_le := ihle (maxStep v x y0) (List.mem_cons_self _ _)
      rcases List.mem_cons.mp hy with hyx | hy'
      · subst hyx
        by_cases hgt : Constraints.restrictionOf y.2 v > Constraints.restrictionOf y0.2 v
        · have hs : maxStep v y y0 = y := by unfold maxStep; rw [if_pos hgt]
          rw [hs] at hstep_le ⊢
          exact hstep_le
        · have hs : maxStep v y y0 = y0 := by unfold maxStep; rw [if_neg hgt]
          rw [hs] at hstep_le ⊢
          exact le_trans (le_of_not_lt hgt) hstep_le
      rcases List.mem_cons.mp hy' with hyy | hy''
      · subst hyy
        by_cases hgt : Constraints.restrictionOf x.2 v > Constraints.restrictionOf y.2 v
        · have hs : maxStep v x y = x := by unfold maxStep; rw [if_pos hgt]
          rw [hs] at hstep_le ⊢
          exact le_trans (le_of_lt hgt) hstep_le
        · have hs : maxStep v x y = y := by unfold maxStep; rw [if_neg hgt]
          rw [hs] at hstep_le ⊢
          exact hstep_le
      · exact ihle y (List.mem_cons_of_mem _ hy'')
    · intro y hy heq
      rcases List.mem_cons.mp hy with hyx | hy'
      · subst hyx
        rcases List.mem_cons.mp ihmem with h | h
        · rcases hstep_mem with hs | hs
          · rw [h, hs]
          · rw [h, hs]
            exact le_of_lt (hx y0 (List.mem_cons_self _ _))
        · exact le_of_lt (hx _ (List.mem_cons_of_mem _ h))
      rcases List.mem_cons.mp hy' with hyy | hy''
      · subst hyy
        rcases List.mem_cons.mp ihmem with h | h
        · rcases hstep_mem with hs | hs
          · exfalso
            have hgt : Constraints.restrictionOf x.2 v > Constraints.restrictionOf y.2 v := by
              by_contra hngt
              have : maxStep v x y = y := by unfold maxStep; rw [if_neg hngt]
              rw [this] at hs
              have := congrArg Prod.fst hs
              have hlt := (List.pairwise_cons.mp hpw).1 y (List.mem_cons_self _ _)
              omega
            rw [h, hs] at heq
            exact absurd heq (ne_of_lt hgt)
          · rw [h, hs]
        · exact le_of_lt (hy0 _ h)
      · exact ihtie y (List.mem_cons_of_mem _ hy'') heq

theorem most_restrictive_eq (cs : Constraints) (v : Variable) :
    cs.most_restrictive v =
      match cs.inner.enum.filter (fun p => Constraints.eligibleRow p.2 v) with
      | [] => none
      | x :: xs => some ((xs.foldl (maxStep v) x).1) := rfl

/-- Claim C5 (corrected): `most_restrictive` considers exactly the rows
containing the variable with coefficient `≤ 0` and maximizes the ratio,
but ties are broken by the *last*-encountered maximum, not the first:
with two eligible rows of equal ratio the returned index is `1`. -/
theorem C5_counterexample :
    Constraints.most_restrictive
      ⟨[⟨LinearFunction.single_variable "a", .Equal, ⟨-2, [("x", -1)]⟩⟩,
        ⟨LinearFunction.single_variable "b", .Equal, ⟨-4, [("x", -2)]⟩⟩]⟩ "x" = some 1 ∧
    Constraints.eligibleRow
      ⟨LinearFunction.single_variable "a", .Equal, ⟨-2, [("x", -1)]⟩⟩ "x" = true ∧
    Constraints.eligibleRow
      ⟨LinearFunction.single_variable "b", .Equal, ⟨-4, [("x", -2)]⟩⟩ "x" = true ∧
    Constraints.restrictionOf
      ⟨LinearFunction.single_variable "a", .Equal, ⟨-2, [("x", -1)]⟩⟩ "x" =
      Constraints.restrictionOf
        ⟨LinearFunction.single_variable "b", .Equal, ⟨-4, [("x", -2)]⟩⟩ "x" ∧
    (1 : ℕ) ≠ 0 := by
  refine ⟨by decide, by decide, by decide, by decide, by decide⟩

/-- Claim C5 (amended): `most_restrictive` returns `none` exactly when
no row's right side contains the variable with coefficient `≤ 0`, and
otherwise returns the index of an eligible row whose ratio
`constant / coefficient` is maximal among the eligible rows, ties broken
by the *last*-encountered maximum in stored order (Rust's
`Iterator::max_by` keeps the last of equally maximal elements). -/
theorem C5_amended (cs : Constraints) (v : Variable) :
    (cs.most_restrictive v = none ↔
      ∀ (i : ℕ) (c : Constraint), cs.inner[i]? = some c →
        Constraints.eligibleRow c v = false) ∧
    (∀ i : ℕ, cs.most_restrictive v = some i →
      ∃ c, cs.inner[i]? = some c ∧ Constraints.eligibleRow c v = true ∧
        ∀ (j : ℕ) (d : Constraint), cs.inner[j]? = some d →
          Constraints.eligibleRow d v = true →
          Constraints.restrictionOf d v ≤ Constraints.restrictionOf c v ∧
            (Constraints.restrictionOf d v = Constraints.restrictionOf c v → j ≤ i)) := by
  have henum_pw : (cs.inner.enum.filter
      (fun p => Constraints.eligibleRow p.2 v)).Pairwise (fun p q => p.1 < q.1) :=
    (enumFrom_pairwise cs.inner 0).filter _
  constructor
  · cases helig : cs.inner.enum.filter (fun p => Constraints.eligibleRow p.2 v) with
    | nil =>
      constructor
      · intro _ i c hic
        cases hel : Constraints.eligibleRow c v
        · rfl
        · exfalso
          have hmem : ((0 + i, c) : ℕ × Constraint) ∈ List.enumFrom 0 cs.inner :=
            getElem?_mem_enumFrom cs.inner 0 i c hic
          have hinf : ((0 + i, c) : ℕ × Constraint) ∈
              cs.inner.enum.filter (fun p => Constraints.eligibleRow p.2 v) :=
            List.mem_filter.mpr ⟨hmem, hel⟩
          rw [helig] at hinf
          exact List.not_mem_nil _ hinf
      · intro _
        rw [most_restrictive_eq, helig]
    | cons x xs =>
      constructor
      · intro hnone
        rw [most_restrictive_eq, helig] at hnone
        exact Option.noConfusion hnone
      · intro hall
        exfalso
        have hx : x ∈ cs.inner.enum.filter (fun p => Constraints.eligibleRow p.2 v) := by
          rw [helig]; exact List.mem_cons_self _ _
        obtain ⟨hxe, hxel⟩ := List.mem_filter.mp hx
        obtain ⟨-, hx2⟩ := enumFrom_mem_getElem? cs.inner 0 x hxe
        have hfalse := hall x.1 x.2 (by simpa using hx2)
        rw [hxel] at hfalse
        exact Bool.noConfusion hfalse
  · intro i hsome
    rw [most_restrictive_eq] at hsome
    cases helig : cs.inner.enum.filter (fun p => Constraints.eligibleRow p.2 v) with
    | nil =>
      rw [helig] at hsome
      exact Option.noConfusion hsome
    | cons x xs =>
      rw [helig] at hsome
      have hpw : (x :: xs).Pairwise (fun p q => p.1 < q.1) := helig ▸ henum_pw
      obtain ⟨hmem, hle, htie⟩ := foldl_max_spec v xs x hpw
      have hi : i = (xs.foldl (maxStep v) x).1 := (Option.some.injEq .. ▸ hsome).symm
      have hrfilter : xs.foldl (maxStep v) x ∈
          cs.inner.enum.filter (fun p => Constraints.eligibleRow p.2 v) := by
        rw [helig]; exact hmem
      obtain ⟨hrenum, hrel⟩ := List.mem_filter.mp hrfilter
      obtain ⟨-, hr2⟩ := enumFrom_mem_getElem? cs.inner 0 _ hrenum
      refine ⟨(xs.foldl (maxStep v) x).2, ?_, hrel, ?_⟩
      · rw [hi]; simpa using hr2
      · intro j d hjd heligd
        have hmemjd : ((0 + j, d) : ℕ × Constraint) ∈ List.enumFrom 0 cs.inner :=
          getElem?_mem_enumFrom cs.inner 0 j d hjd
        have hjdf : ((0 + j, d) : ℕ × Constraint) ∈ x :: xs := by
          rw [← helig]
          exact List.mem_filter.mpr ⟨hmemjd, heligd⟩
        refine ⟨hle _ hjdf, fun heq => ?_⟩
        have hj := htie _ hjdf heq
        rw [hi]
        simpa using hj

/-- Witness for C5 on a two-row system where only the second row is
eligible. -/
theorem C5_witness :
    ∃ c, ([⟨LinearFunction.single_variable "a", Operator.Equal, ⟨3, [("y", 1)]⟩⟩,
        ⟨LinearFunction.single_variable "b", Operator.Equal, ⟨6, [("x", -2)]⟩⟩] :
          List Constraint)[1]? = some c ∧
      Constraints.eligibleRow c "x" = true ∧
      ∀ (j : ℕ) (d : Constraint),
        ([⟨LinearFunction.single_variable "a", Operator.Equal, ⟨3, [("y", 1)]⟩⟩,
          ⟨LinearFunction.single_variable "b", Operator.Equal, ⟨6, [("x", -2)]⟩⟩] :
            List Constraint)[j]? = some d → Constraints.eligibleRow d "x" = true →
        Constraints.restrictionOf d "x" ≤ Constraints.restrictionOf c "x" ∧
          (Constraints.restrictionOf d "x" = Constraints.restrictionOf c "x" → j ≤ 1) :=
  (C5_amended
    ⟨[⟨LinearFunction.single_variable "a", Operator.Equal, ⟨3, [("y", 1)]⟩⟩,
      ⟨LinearFunction.single_variable "b", Operator.Equal, ⟨6, [("x", -2)]⟩⟩]⟩ "x").2
    1 (by decide)

/-!
## Claim C10 machinery: distinctness of the structural-variable list and
the write-by-position fold of `point`.
-/

theorem positionOf_getD :
    ∀ (l : List Variable) (v : Variable) (j : ℕ), positionOf l v = some j →
      j < l.length ∧ l.getD j "" = v
  | [], _, _ => by simp [positionOf]
  | w :: l, v, j => by
    intro h
    simp only [positionOf] at h
    by_cases hw : w = v
    · rw [if_pos hw] at h
      cases h
      exact ⟨by simp, hw⟩
    · rw [if_neg hw] at h
      cases hj : positionOf l v with
      | none => rw [hj] at h; exact Option.noConfusion h
      | some j' =>
        rw [hj] at h
        have hjj : j = j' + 1 := ((Option.some.injEq .. ▸ h)).symm
        subst hjj
        obtain ⟨h1, h2⟩ := positionOf_getD l v j' hj
        exact ⟨by simp; omega, by simpa using h2⟩

theorem positionOf_self :
    ∀ (l : List Variable), l.Nodup → ∀ i : ℕ, i < l.length →
      positionOf l (l.getD i "") = some i
  | [], _, i => by simp
  | w :: l, hnd, 0 => by
    intro _
    simp [positionOf]
  | w :: l, hnd, i + 1 => by
    intro hi
    have hgd : (w :: l).getD (i + 1) "" = l.getD i "" := by simp
    rw [hgd]
    simp only [positionOf]
    have hmem : l.getD i "" ∈ l := by
      rw [List.getD_eq_getElem?_getD]
      cases hg : l[i]? with
      | none =>
        exfalso
        rw [List.getElem?_eq_none_iff] at hg
        simp at hi
        omega
      | some a => simpa [hg] using List.getElem?_mem hg
    have hw : ¬ w = l.getD i "" := by
      intro hcontra
      exact (List.nodup_cons.mp hnd).1 (hcontra ▸ hmem)
    rw [if_neg hw, positionOf_self l (List.nodup_cons.mp hnd).2 i (by simpa using hi)]
    rfl

theorem union_nodup {a b : List Variable} (ha : a.Nodup) (hb : b.Nodup) :
    (union a b).Nodup := by
  rw [union, List.nodup_append]
  refine ⟨ha, hb.filter _, ?_⟩
  intro v hva hvb
  have := (List.mem_filter.mp hvb).2
  simp only [decide_eq_true_eq, List.contains_iff_exists_mem_beq] at this
  exact this ⟨v, hva, by simp⟩

theorem lf_non_gap_nodup {lf : LinearFunction} (h : lf.wfKeys) :
    lf.non_gap_variables.Nodup :=
  List.Nodup.filter _ h

theorem constraint_non_gap_nodup {c : Constraint}
    (hl : c.left.wfKeys) (hr : c.right.wfKeys) :
    c.non_gap_variables.Nodup :=
  union_nodup (lf_non_gap_nodup hl) (lf_non_gap_nodup hr)

theorem foldl_union_nodup :
    ∀ (l : List Constraint) (acc : List Variable), acc.Nodup →
      (∀ c ∈ l, c.left.wfKeys ∧ c.right.wfKeys) →
      (l.foldl (fun acc c => union acc c.non_gap_variables) acc).Nodup
  | [], acc, hacc, _ => hacc
  | c :: l, acc, hacc, h => by
    have hc := h c (List.mem_cons_self c l)
    exact foldl_union_nodup l (union acc c.non_gap_variables)
      (union_nodup hacc (constraint_non_gap_nodup hc.1 hc.2))
      (fun d hd => h d (List.mem_cons_of_mem c hd))

theorem lp_vars_nodup {lp : LinearProgram} (h : lp.wfKeys) :
    lp.non_gap_variables.Nodup := by
  unfold LinearProgram.non_gap_variables
  rw [(List.perm_insertionSort varLe _).nodup_iff]
  exact union_nodup (lf_non_gap_nodup h.1)
    (foldl_union_nodup lp.constraints.inner [] List.Pairwise.nil h.2)

theorem point_eq (lp : LinearProgram) :
    lp.point = if lp.is_valid then
      some (lp.constraints.inner.foldl (pointStep lp.non_gap_variables)
        (List.replicate lp.non_gap_variables.length 0))
    else none := rfl

theorem pointStep_length (vars : List Variable) (pt : List ℚ) (c : Constraint) :
    (pointStep vars pt c).length = pt.length := by
  unfold pointStep
  cases c.left.name_single_variable with
  | none => rfl
  | some v =>
    show (match positionOf vars v with
      | some i => pt.set i c.right.constant
      | none => pt).length = pt.length
    cases positionOf vars v with
    | none => rfl
    | some i => simp

theorem foldl_pointStep_length (vars : List Variable) :
    ∀ (rows : List Constraint) (pt : List ℚ),
      (rows.foldl (pointStep vars) pt).length = pt.length
  | [], _ => rfl
  | c :: rows, pt => by
    rw [List.foldl_cons, foldl_pointStep_length vars rows, pointStep_length]

theorem foldl_overwrite :
    ∀ (l : List Constraint) (init k : ℚ), (∀ c ∈ l, c.right.constant = k) → l ≠ [] →
      l.foldl (fun _ c => c.right.constant) init = k
  | [], _, _, _, hne => absurd rfl hne
  | a :: l, init, k, h, _ => by
    rw [List.foldl_cons]
    cases l with
    | nil => exact h a (List.mem_cons_self _ _)
    | cons b l' =>
      exact foldl_overwrite (b :: l') _ k
        (fun c hc => h c (List.mem_cons_of_mem a hc)) (by simp)

theorem foldl_pointStep_getD (vars : List Variable) (hnd : vars.Nodup) :
    ∀ (rows : List Constraint) (pt : List ℚ), pt.length = vars.length →
      ∀ i : ℕ, i < vars.length →
        (rows.foldl (pointStep vars) pt).getD i 0 =
          (rows.filter
            (fun c => c.left.name_single_variable = some (vars.getD i ""))).foldl
              (fun _ c => c.right.constant) (pt.getD i 0)
  | [], _, _, _, _ => rfl
  | c :: rows, pt, hlen, i, hi => by
    rw [List.foldl_cons]
    have hstep_len : (pointStep vars pt c).length = vars.length := by
      rw [pointStep_length]; exact hlen
    by_cases hmatch : c.left.name_single_variable = some (vars.getD i "")
    · have hfilter : (c :: rows).filter
          (fun c => c.left.name_single_variable = some (vars.getD i "")) =
          c :: rows.filter
            (fun c => c.left.name_single_variable = some (vars.getD i "")) := by
        rw [List.filter_cons_of_pos (by simpa using hmatch)]
      rw [hfilter, List.foldl_cons]
      have hpt' : (pointStep vars pt c).getD i 0 = c.right.constant := by
        unfold pointStep
        rw [hmatch]
        show (match positionOf vars (vars.getD i "") with
          | some i => pt.set i c.right.constant
          | none => pt).getD i 0 = c.right.constant
        rw [positionOf_self vars hnd i hi]
        show (pt.set i c.right.constant).getD i 0 = c.right.constant
        rw [List.getD_eq_getElem?_getD, List.getElem?_set_self (by omega)]
        rfl
      rw [foldl_pointStep_getD vars hnd rows (pointStep vars pt c) hstep_len i hi, hpt']
    · have hfilter : (c :: rows).filter
          (fun c => c.left.name_single_variable = some (vars.getD i "")) =
          rows.filter
            (fun c => c.left.name_single_variable = some (vars.getD i "")) := by
        rw [List.filter_cons_of_neg (by simpa using hmatch)]
      rw [hfilter]
      have hpt' : (pointStep vars pt c).getD i 0 = pt.getD i 0 := by
        unfold pointStep
        cases hname : c.left.name_single_variable with
        | none => rfl
        | some v =>
          show (match positionOf vars v with
            | some i => pt.set i c.right.constant
            | none => pt).getD i 0 = pt.getD i 0
          cases hpos : positionOf vars v with
          | none => rfl
          | some j =>
            obtain ⟨hj1, hj2⟩ := positionOf_getD vars v j hpos
            have hji : j ≠ i := by
              intro hcontra
              subst hcontra
              exact hmatch (hj2 ▸ hname)
            rw [List.getD_eq_getElem?_getD, List.getD_eq_getElem?_getD,
              List.getElem?_set_ne hji]
      rw [foldl_pointStep_getD vars hnd rows (pointStep vars pt c) hstep_len i hi, hpt']

/-- Claim C10 (confirmed): for a fully standardized program (`is_valid`,
with the `HashMap` key-distinctness invariant), `point` returns a vector
indexed by the sorted structural variables: the entry of a variable is
`0` when no row's left-hand side is that variable, and it is the
right-hand constant of the row whose left-hand side is that single
variable when there is exactly one such row. -/
theorem C10_point (lp : LinearProgram) (hwf : lp.wfKeys) (hval : lp.is_valid = true) :
    ∃ pt, lp.point = some pt ∧ pt.length = lp.non_gap_variables.length ∧
      ∀ i : ℕ, i < lp.non_gap_variables.length →
        ((∀ c ∈ lp.constraints.inner,
            ¬ c.left.name_single_variable = some (lp.non_gap_variables.getD i "")) →
          pt.getD i 0 = 0) ∧
        (∀ c ∈ lp.constraints.inner,
          c.left.name_single_variable = some (lp.non_gap_variables.getD i "") →
          (∀ c' ∈ lp.constraints.inner,
            c'.left.name_single_variable = some (lp.non_gap_variables.getD i "") →
              c' = c) →
          pt.getD i 0 = c.right.constant) := by
  have hnd : lp.non_gap_variables.Nodup := lp_vars_nodup hwf
  refine ⟨lp.constraints.inner.foldl (pointStep lp.non_gap_variables)
    (List.replicate lp.non_gap_variables.length 0), ?_, ?_, ?_⟩
  · rw [point_eq, if_pos hval]
  · rw [foldl_pointStep_length, List.length_replicate]
  · intro i hi
    have hrepl : (List.replicate lp.non_gap_variables.length (0 : ℚ)).getD i 0 = 0 := by
      rw [List.getD_eq_getElem?_getD, List.getElem?_replicate_of_lt hi]
      rfl
    have hmain := foldl_pointStep_getD lp.non_gap_variables hnd lp.constraints.inner
      (List.replicate lp.non_gap_variables.length 0) (List.length_replicate ..) i hi
    constructor
    · intro hnone
      rw [hmain, hrepl]
      have hfilter : lp.constraints.inner.filter
          (fun c => c.left.name_single_variable =
            some (lp.non_gap_variables.getD i "")) = [] := by
        rw [List.filter_eq_nil_iff]
        intro c hc
        simpa using hnone c hc
      rw [hfilter]
      rfl
    · intro c hc hname huniq
      rw [hmain, hrepl]
      have hcf : c ∈ lp.constraints.inner.filter
          (fun c => c.left.name_single_variable =
            some (lp.non_gap_variables.getD i "")) :=
        List.mem_filter.mpr ⟨hc, by simpa using hname⟩
      refine foldl_overwrite _ _ _ ?_ (List.ne_nil_of_mem hcf)
      intro d hd
      obtain ⟨hd1, hd2⟩ := List.mem_filter.mp hd
      rw [huniq d hd1 (by simpa using hd2)]

/-- Witness for C10 on the one-row valid program `x = 7` with objective `x`. -/
theorem C10_witness :
    ∃ pt, (⟨⟨0, [("x", 1)]⟩,
        ⟨[⟨⟨0, [("x", 1)]⟩, Operator.Equal, ⟨7, []⟩⟩]⟩⟩ : LinearProgram).point = some pt ∧
      pt.length = (⟨⟨0, [("x", 1)]⟩,
        ⟨[⟨⟨0, [("x", 1)]⟩, Operator.Equal, ⟨7, []⟩⟩]⟩⟩ :
          LinearProgram).non_gap_variables.length ∧
      ∀ i : ℕ, i < (⟨⟨0, [("x", 1)]⟩,
          ⟨[⟨⟨0, [("x", 1)]⟩, Operator.Equal, ⟨7, []⟩⟩]⟩⟩ :
            LinearProgram).non_gap_variables.length →
        ((∀ c ∈ (⟨[⟨⟨0, [("x", 1)]⟩, Operator.Equal, ⟨7, []⟩⟩]⟩ : Constraints).inner,
            ¬ c.left.name_single_variable = some ((⟨⟨0, [("x", 1)]⟩,
              ⟨[⟨⟨0, [("x", 1)]⟩, Operator.Equal, ⟨7, []⟩⟩]⟩⟩ :
                LinearProgram).non_gap_variables.getD i "")) →
          pt.getD i 0 = 0) ∧
        (∀ c ∈ (⟨[⟨⟨0, [("x", 1)]⟩, Operator.Equal, ⟨7, []⟩⟩]⟩ : Constraints).inner,
          c.left.name_single_variable = some ((⟨⟨0, [("x", 1)]⟩,
            ⟨[⟨⟨0, [("x", 1)]⟩, Operator.Equal, ⟨7, []⟩⟩]⟩⟩ :
              LinearProgram).non_gap_variables.getD i "") →
          (∀ c' ∈ (⟨[⟨⟨0, [("x", 1)]⟩, Operator.Equal, ⟨7, []⟩⟩]⟩ : Constraints).inner,
            c'.left.name_single_variable = some ((⟨⟨0, [("x", 1)]⟩,
              ⟨[⟨⟨0, [("x", 1)]⟩, Operator.Equal, ⟨7, []⟩⟩]⟩⟩ :
                LinearProgram).non_gap_variables.getD i "") → c' = c) →
          pt.getD i 0 = c.right.constant) :=
  C10_point ⟨⟨0, [("x", 1)]⟩, ⟨[⟨⟨0, [("x", 1)]⟩, Operator.Equal, ⟨7, []⟩⟩]⟩⟩
    (by constructor
        · decide
        · intro c hc
          rw [List.mem_singleton.mp hc]
          exact ⟨by decide, by decide⟩)
    (by decide)

/-!
## Claim C8
-/

/-- Claim C8 (corrected): two `LinearFunction`s that differ only in a
variable carried with coefficient `0` (present in one, absent from the
other) are *not* equal under the derived `PartialEq` — the `HashMap`
comparison distinguishes presence from absence — even though the
defaulted coefficient lookup reads `0` from both. -/
theorem C8_counterexample :
    LinearFunction.beq ⟨0, [("x", 0)]⟩ ⟨0, []⟩ = false ∧
    LinearFunction.getCoeff ⟨0, [("x", 0)]⟩ "x" = LinearFunction.getCoeff ⟨0, []⟩ "x" := by
  decide

/-- Claim C8 (amended): adding an explicit zero-coefficient entry for a
variable absent from a `LinearFunction` yields a value the derived
equality distinguishes from the original, although the defaulted
coefficient lookup returns the same value (`0`) for both. -/
theorem C8_amended (lf : LinearFunction) (v : Variable)
    (h : lookupCoeff lf.coefficients v = none) :
    LinearFunction.beq ⟨lf.constant, (v, 0) :: lf.coefficients⟩ lf = false ∧
    LinearFunction.getCoeff ⟨lf.constant, (v, 0) :: lf.coefficients⟩ v =
      LinearFunction.getCoeff lf v := by
  constructor
  · simp only [LinearFunction.beq, LinearFunction.hashMapEqB, List.length_cons,
      Bool.and_eq_false_iff]
    right
    left
    simp [Nat.succ_ne_self]
  · simp [LinearFunction.getCoeff, lookupCoeff, h]

/-- Witness for C8 at a concrete function and variable. -/
theorem C8_witness :
    (LinearFunction.beq ⟨1, [("x", 0), ("y", 2)]⟩ ⟨1, [("y", 2)]⟩ = false ∧
      LinearFunction.getCoeff ⟨1, [("x", 0), ("y", 2)]⟩ "x" =
        LinearFunction.getCoeff ⟨1, [("y", 2)]⟩ "x") :=
  C8_amended ⟨1, [("y", 2)]⟩ "x" (by decide)

/-!
## Claim C9
-/

/-- Claim C9 (corrected): a malformed token sequence — here `"+"`, a
sign followed by neither a number nor a variable — does *not* yield a
parse error: `FromStr for LinearFunction` runs `many0`, which stops at
the first failing term and ignores the rest of the input, and the
function then returns `Ok` unconditionally. -/
theorem C9_counterexample :
    LinearFunction.fromStr "+" = .ok LinearFunction.zero := by decide

/-- Claim C9 (amended): parsing a `LinearFunction` never fails — the
parser folds the longest valid prefix of terms and silently drops any
malformed suffix (so `"+"` parses to the zero function), while
well-formed input parses to the expected value (the crate's own doctest
`"2.5z + 30 - 32x"`). -/
theorem C9_amended :
    (∀ s : String, (LinearFunction.fromStr s).isOk = true) ∧
    LinearFunction.fromStr "+" = .ok LinearFunction.zero ∧
    LinearFunction.fromStr "" = .ok LinearFunction.zero ∧
    LinearFunction.fromStr "2.5z + 30 - 32x" = .ok ⟨30, [("z", 5/2), ("x", -32)]⟩ := by
  refine ⟨fun s => rfl, by decide, by decide, by decide⟩

/-!
## Claim C7
-/

theorem previous_step_historic (t : Simplex) :
    (Simplex.previous_step t).historic = t.historic := by
  unfold Simplex.previous_step
  split <;> rfl

/-- Claim C7 (confirmed): for a simplex state with a valid position
whose non-final snapshots are all improvable (the shape every reachable
history has), if `advance` succeeds then `retreat` followed by `advance`
returns *exactly* the state the first `advance` produced — `retreat`
never touches the history, and the second `advance` replays the stored
snapshot instead of recomputing a pivot. -/
theorem C7_navigation (s s1 : Simplex)
    (h1 : s.index < s.historic.length)
    (h2 : ∀ i, i + 1 < s.historic.length →
      (LinearFunction.fpcOpt true (s.historic.getD i default).linear_function).isSome = true)
    (h3 : Simplex.next_step true s = some s1) :
    (∀ t : Simplex, (Simplex.previous_step t).historic = t.historic) ∧
    Simplex.next_step true (Simplex.previous_step s1) = some s1 := by
  refine ⟨previous_step_historic, ?_⟩
  cases hfpc : LinearFunction.fpcOpt true s.current_state.linear_function with
  | none =>
    simp only [Simplex.next_step, hfpc, Option.some.injEq] at h3
    subst h3
    by_cases hidx : s.index = 0
    · have hprev : Simplex.previous_step s = s := by
        unfold Simplex.previous_step
        rw [if_pos hidx]
      rw [hprev]
      simp only [Simplex.next_step, hfpc]
    · have hprev : Simplex.previous_step s = ⟨s.index - 1, s.historic⟩ := by
        unfold Simplex.previous_step
        rw [if_neg hidx]
      rw [hprev]
      have hlt : s.index - 1 + 1 < s.historic.length := by omega
      obtain ⟨v, hv⟩ := Option.isSome_iff_exists.mp (h2 (s.index - 1) hlt)
      have hcur : (Simplex.mk (s.index - 1) s.historic).current_state =
          s.historic.getD (s.index - 1) default := rfl
      have hne : ¬ (s.index - 1 = s.historic.length - 1) := by omega
      simp only [Simplex.next_step, hcur, hv, hne, if_false, Option.some.injEq]
      have : s.index - 1 + 1 = s.index := by omega
      rw [this]
  | some v =>
    simp only [Simplex.next_step, hfpc] at h3
    by_cases hidx : s.index = s.historic.length - 1
    · rw [if_pos hidx] at h3
      cases hpiv : s.current_state.pivot v with
      | none => rw [hpiv] at h3; exact Option.noConfusion h3
      | some lp =>
        rw [hpiv] at h3
        have hs1 : s1 = ⟨s.index + 1, s.historic ++ [lp]⟩ :=
          (Option.some.injEq .. ▸ h3).symm
        subst hs1
        have hprev : Simplex.previous_step ⟨s.index + 1, s.historic ++ [lp]⟩ =
            ⟨s.index, s.historic ++ [lp]⟩ := by
          unfold Simplex.previous_step
          simp
        rw [hprev]
        have hcur : (Simplex.mk s.index (s.historic ++ [lp])).current_state =
            s.current_state := by
          show (s.historic ++ [lp]).getD s.index default = s.historic.getD s.index default
          rw [List.getD_eq_getElem?_getD, List.getD_eq_getElem?_getD,
            List.getElem?_append_left h1]
        have hne : ¬ (s.index = (s.historic ++ [lp]).length - 1) := by
          simp only [List.length_append, List.length_cons, List.length_nil]
          omega
        simp only [Simplex.next_step, hcur, hfpc, hne, if_false]
    · rw [if_neg hidx] at h3
      have hs1 : s1 = ⟨s.index + 1, s.historic⟩ := (Option.some.injEq .. ▸ h3).symm
      subst hs1
      have hprev : Simplex.previous_step ⟨s.index + 1, s.historic⟩ =
          ⟨s.index, s.historic⟩ := by
        unfold Simplex.previous_step
        simp
      rw [hprev]
      have hcur : (Simplex.mk s.index s.historic).current_state =
          s.current_state := rfl
      simp only [Simplex.next_step, hcur, hfpc, hidx, if_false]

/-!
## Claim C6 machinery: the first satisfying entry of a sorted list has a
minimal key among all satisfying entries.
-/

theorem find?_sorted_min {p : Variable × ℚ → Bool} :
    ∀ (l : List (Variable × ℚ)), l.Sorted keyLe → ∀ {r}, l.find? p = some r →
      ∀ q ∈ l, p q = true → strLe r.1 q.1 = true
  | [], _, _, h => by simp at h
  | a :: l, hs, r, h => by
    intro q hq hpq
    by_cases hpa : p a = true
    · rw [List.find?_cons_of_pos _ hpa] at h
      cases h
      rcases List.mem_cons.mp hq with hq | hq
      · rw [hq]; exact charListLe_refl _
      · exact (List.sorted_cons.mp hs).1 q hq
    · rw [List.find?_cons_of_neg _ (by simpa using hpa)] at h
      rcases List.mem_cons.mp hq with hq | hq
      · rw [hq] at hpq; exact absurd hpq hpa
      · exact find?_sorted_min l (List.sorted_cons.mp hs).2 h q hq hpq

/-- Claim C6 (corrected): on an expression with no strictly positive
coefficient, `first_positive_coefficient` as it stands in
`linear_function.rs` does not return `none` — its return type is a plain
pair and it falls back to the sentinel `("error", 0.0)`, where `"error"`
is not even a variable of the expression. -/
theorem C6_counterexample :
    (⟨0, [("x", -1)]⟩ : LinearFunction).first_positive_coefficient = ("error", 0) ∧
    (∀ p ∈ ([("x", -1)] : List (Variable × ℚ)), ¬ (0 : ℚ) < p.2) ∧
    lookupCoeff [(("x" : Variable), (-1 : ℚ))] "error" = none := by
  refine ⟨by decide, by decide, by decide⟩

/-- Claim C6 (amended): `first_positive_coefficient` visits the stored
entries in lexicographic variable order and returns the first with a
strictly positive coefficient — a stored entry whose variable is
lexicographically least among the positive ones; when no coefficient is
strictly positive it returns the sentinel pair `("error", 0.0)` (not
`none`: the function's return type is a plain pair).  On the expression
parsed from `"200+5x-6z+3y"` it returns `("x", 5)`. -/
theorem C6_amended (lf : LinearFunction) :
    ((∀ p ∈ lf.coefficients, ¬ (0 : ℚ) < p.2) →
      lf.first_positive_coefficient = ("error", 0)) ∧
    ((∃ p ∈ lf.coefficients, (0 : ℚ) < p.2) →
      lf.first_positive_coefficient ∈ lf.coefficients ∧
        (0 : ℚ) < lf.first_positive_coefficient.2 ∧
        ∀ q ∈ lf.coefficients, (0 : ℚ) < q.2 →
          strLe lf.first_positive_coefficient.1 q.1 = true) ∧
    (LinearFunction.fromStr "200+5x-6z+3y" = .ok ⟨200, [("x", 5), ("z", -6), ("y", 3)]⟩ ∧
      (⟨200, [("x", 5), ("z", -6), ("y", 3)]⟩ :
        LinearFunction).first_positive_coefficient = ("x", 5)) := by
  have hperm : (List.insertionSort keyLe lf.coefficients).Perm lf.coefficients :=
    List.perm_insertionSort keyLe lf.coefficients
  have hsorted : (List.insertionSort keyLe lf.coefficients).Sorted keyLe :=
    List.sorted_insertionSort keyLe lf.coefficients
  have hsortedF : ((List.insertionSort keyLe lf.coefficients).filter
      (fun p => ¬ p.2 = 0)).Sorted keyLe := hsorted.filter _
  refine ⟨?_, ?_, by decide, by decide⟩
  · intro hnone
    cases hfind : ((List.insertionSort keyLe lf.coefficients).filter
        (fun p => ¬ p.2 = 0)).find? (fun p => decide ((0 : ℚ) < p.2)) with
    | none => simp only [LinearFunction.first_positive_coefficient, hfind]
    | some r =>
      exfalso
      have hr : (0 : ℚ) < r.2 := by
        simpa using List.find?_some hfind
      have hrmem : r ∈ lf.coefficients :=
        hperm.mem_iff.mp (List.mem_of_mem_filter (List.mem_of_find?_eq_some hfind))
      exact hnone r hrmem hr
  · rintro ⟨p, hpmem, hppos⟩
    have hpmem' : p ∈ (List.insertionSort keyLe lf.coefficients).filter
        (fun p => ¬ p.2 = 0) := by
      rw [List.mem_filter]
      exact ⟨hperm.mem_iff.mpr hpmem, by simp; exact ne_of_gt hppos⟩
    cases hfind : ((List.insertionSort keyLe lf.coefficients).filter
        (fun p => ¬ p.2 = 0)).find? (fun p => decide ((0 : ℚ) < p.2)) with
    | none =>
      exfalso
      exact (List.find?_eq_none.mp hfind) p hpmem' (by simpa using hppos)
    | some r =>
      have hres : lf.first_positive_coefficient = r := by
        simp only [LinearFunction.first_positive_coefficient, hfind]
      rw [hres]
      have hr : (0 : ℚ) < r.2 := by simpa using List.find?_some hfind
      have hrmem : r ∈ lf.coefficients :=
        hperm.mem_iff.mp (List.mem_of_mem_filter (List.mem_of_find?_eq_some hfind))
      refine ⟨hrmem, hr, ?_⟩
      intro q hq hqpos
      have hqmem : q ∈ (List.insertionSort keyLe lf.coefficients).filter
          (fun p => ¬ p.2 = 0) := by
        rw [List.mem_filter]
        exact ⟨hperm.mem_iff.mpr hq, by simp; exact ne_of_gt hqpos⟩
      exact find?_sorted_min _ hsortedF hfind q hqmem (by simpa using hqpos)

/-- Witness for C6: the sentinel branch at `-x` and the positive branch
at `5x - 6z`. -/
theorem C6_witness :
    ((⟨0, [("x", -1)]⟩ : LinearFunction).first_positive_coefficient = ("error", 0)) ∧
    ((⟨0, [("z", -6), ("x", 5)]⟩ : LinearFunction).first_positive_coefficient ∈
        ([("z", -6), ("x", 5)] : List (Variable × ℚ)) ∧
      (0 : ℚ) < (⟨0, [("z", -6), ("x", 5)]⟩ :
        LinearFunction).first_positive_coefficient.2 ∧
      ∀ q ∈ ([("z", -6), ("x", 5)] : List (Variable × ℚ)), (0 : ℚ) < q.2 →
        strLe (⟨0, [("z", -6), ("x", 5)]⟩ :
          LinearFunction).first_positive_coefficient.1 q.1 = true) :=
  ⟨(C6_amended ⟨0, [("x", -1)]⟩).1 (by decide),
   (C6_amended ⟨0, [("z", -6), ("x", 5)]⟩).2.1 ⟨("x", 5), by decide, by decide⟩⟩

/-- Witness for C7 at an already-optimal single-snapshot state. -/
theorem C7_witness :
    (∀ t : Simplex, (Simplex.previous_step t).historic = t.historic) ∧
    Simplex.next_step true
      (Simplex.previous_step ⟨0, [⟨LinearFunction.zero, ⟨[]⟩⟩]⟩) =
      some ⟨0, [⟨LinearFunction.zero, ⟨[]⟩⟩]⟩ :=
  C7_navigation ⟨0, [⟨LinearFunction.zero, ⟨[]⟩⟩]⟩ ⟨0, [⟨LinearFunction.zero, ⟨[]⟩⟩]⟩
    (by decide) (fun i hi => by simp at hi) (by decide)

end Pedalgo
